import Mathlib

/-!
Verification of the Bak-Tang-Wiesenfeld sandpile engine (bak_sandpiles.py).

The grid is an n x n array of natural numbers indexed (row, col).  The
operations modelled here are, faithfully to the source:

* add_sand (x, y): bounds-checked single-grain drop that increments the
  global drop counter on success (lines 52-58);
* topple: the synchronous multi-pass stabilization loop (lines 60-102),
  modelled with an explicit fuel argument; the potential function phi is
  proved further below to be a sufficient pass budget, so the fuel-free
  while loop of the source and the fuelled function agree;
* record_avalanche: appends strictly positive avalanche sizes (lines 104-108);
* the log-binned histogram / power-law fitting branch structure of
  plot_avalanches_enhanced (lines 129-215), with the floating-point
  transcendentals (np.logspace, np.log10, geometric mean) held abstract and
  float arithmetic modelled by exact rationals.

The grains lost off the open boundary are not tracked by the source; they are
modelled by the ghost quantities lostInPass / toppleLost / SimState.lost,
defined from the same enumeration of toppling cells and the same four
boundary checks as the source redistribution loop.
-/

namespace Sandpile

/-- The sandpile grid: an n x n array of natural numbers, indexed (row, col),
mirroring the NumPy array grid[y, x] of the source. -/
abbrev Grid (n : ℕ) : Type := Fin n → Fin n → ℕ

variable {n : ℕ}

/-- Increment the cell at plain coordinates (row y, col x) by one grain.
Cells are addressed by their numeric coordinates; if no cell matches (out of
range), the grid is unchanged.  This mirrors grid[y, x] += 1 and
additions[y, x] += 1 of the source. -/
def bump (A : Grid n) (y x : ℕ) : Grid n :=
  fun i j => if i.val = y ∧ j.val = x then A i j + 1 else A i j

/-- Subtract 4 from the toppling cell c, mirroring grid[y, x] -= 4 (line 87). -/
def toppleCell (G : Grid n) (c : Fin n × Fin n) : Grid n :=
  fun i j => if i = c.1 ∧ j = c.2 then G i j - 4 else G i j

/-- Add one grain to each in-bounds von Neumann neighbor of (y, x) in the
additions buffer, mirroring the four guarded writes of lines 91-94:
left (x > 0), right (x < n-1), up (y > 0), down (y < n-1). -/
def addNeighbors (A : Grid n) (y x : ℕ) : Grid n :=
  let a1 := if 0 < x then bump A y (x - 1) else A
  let a2 := if x < n - 1 then bump a1 y (x + 1) else a1
  let a3 := if 0 < y then bump a2 (y - 1) x else a2
  if y < n - 1 then bump a3 (y + 1) x else a3

/-- One step of the per-pass loop body (lines 86-94): the main grid loses 4 at
the toppling cell and the scratch additions buffer gains one per in-bounds
neighbor. -/
def passStep (s : Grid n × Grid n) (c : Fin n × Fin n) : Grid n × Grid n :=
  (toppleCell s.1 c, addNeighbors s.2 c.1.val c.2.val)

/-- One full pass, processing the given list of toppling cells in order and
then adding the scratch buffer to the grid (grid += additions, line 97). -/
def passList (g : Grid n) (L : List (Fin n × Fin n)) : Grid n :=
  let s := L.foldl passStep (g, fun _ _ => 0)
  fun i j => s.1 i j + s.2 i j

/-- The list of unstable cells (value at least 4), enumerated in row-major
order exactly as np.where(grid >= 4) returns them (line 72). -/
def unstableList (g : Grid n) : List (Fin n × Fin n) :=
  (List.finRange n).flatMap fun y =>
    (List.finRange n).filterMap fun x =>
      if 4 ≤ g y x then some (y, x) else none

/-- The while-loop condition np.any(grid >= 4) of line 70. -/
def anyUnstable (g : Grid n) : Prop := ∃ y x : Fin n, 4 ≤ g y x

instance (g : Grid n) : Decidable (anyUnstable g) := by
  unfold anyUnstable; infer_instance

/-- A stable grid: every cell strictly below the threshold 4. -/
def stable (g : Grid n) : Prop := ∀ y x : Fin n, g y x < 4

instance (g : Grid n) : Decidable (stable g) := by
  unfold stable; infer_instance

/-- Total number of grains on the grid. -/
def mass (g : Grid n) : ℕ :=
  Finset.sum Finset.univ fun p : Fin n × Fin n => g p.1 p.2

/-- Column weight u(k) = (k+1) * (n-k), a strictly concave positive weight
used for the termination potential. -/
def uu (n k : ℕ) : ℕ := (k + 1) * (n - k)

/-- Cell weight: sum of the row and column weights. -/
def cellWeight (n : ℕ) (p : Fin n × Fin n) : ℕ := uu n p.1.val + uu n p.2.val

/-- Termination potential: weighted total mass.  Every pass that topples at
least one cell strictly decreases phi, so phi g bounds the number of passes
of the while loop of the source. -/
def phi (g : Grid n) : ℕ :=
  Finset.sum Finset.univ fun p : Fin n × Fin n => g p.1 p.2 * cellWeight n p

/-- The stabilization loop of lines 60-102, with an explicit pass budget.
Each iteration mirrors one pass: re-test np.any(grid >= 4), enumerate the
unstable cells, take the defensive break if that enumeration is empty
(lines 75-76), otherwise run the pass and accumulate the pass size. -/
def toppleAux : ℕ → Grid n → Grid n × ℕ
  | 0, g => (g, 0)
  | fuel + 1, g =>
    if anyUnstable g then
      if (unstableList g).length = 0 then (g, 0)
      else
        let r := toppleAux fuel (passList g (unstableList g))
        (r.1, (unstableList g).length + r.2)
    else (g, 0)

/-- The topple() entry point: runs the stabilization loop.  The fuel phi g is
proved below to be a sufficient number of passes, so this equals the
unbounded while loop of the source. -/
def topple (g : Grid n) : Grid n × ℕ := toppleAux (phi g) g

/-- Number of in-bounds von Neumann neighbors of a cell, from the same four
boundary checks as lines 91-94. -/
def degree (n : ℕ) (c : Fin n × Fin n) : ℕ :=
  (if 0 < c.2.val then 1 else 0) + (if c.2.val < n - 1 then 1 else 0) +
  (if 0 < c.1.val then 1 else 0) + (if c.1.val < n - 1 then 1 else 0)

/-- Ghost accounting: grains lost off the open boundary during one pass.
Each toppling cell sheds 4 grains but only degree-many land in-bounds. -/
def lostInPass (g : Grid n) : ℕ :=
  ((unstableList g).map fun c => 4 - degree n c).sum

/-- Ghost accounting: grains lost off the open boundary during a full
stabilization run, following the recursion of toppleAux. -/
def lostAux : ℕ → Grid n → ℕ
  | 0, _ => 0
  | fuel + 1, g =>
    if anyUnstable g then
      if (unstableList g).length = 0 then 0
      else lostInPass g + lostAux fuel (passList g (unstableList g))
    else 0

/-- Ghost accounting: grains lost off the open boundary by one topple() call. -/
def toppleLost (g : Grid n) : ℕ := lostAux (phi g) g

/-- The global simulation state: the grid, the drop counter, the recorded
avalanche-size series (the three module-level globals of the source), plus
the ghost boundary-loss counter used to state conservation. -/
structure SimState (n : ℕ) where
  grid : Grid n
  total_drops : ℕ
  avalanche_sizes : List ℕ
  lost : ℕ

/-- add_sand(x, y) of lines 52-58: if the target is inside [0, n) x [0, n),
increment grid[y, x] and the drop counter; otherwise do nothing. -/
def add_sand (x y : ℤ) (s : SimState n) : SimState n :=
  if 0 ≤ x ∧ x < (n : ℤ) ∧ 0 ≤ y ∧ y < (n : ℤ) then
    { s with grid := bump s.grid y.toNat x.toNat, total_drops := s.total_drops + 1 }
  else s

/-- record_avalanche(size) of lines 104-108: append iff size > 0. -/
def record_avalanche (sz : ℕ) (s : SimState n) : SimState n :=
  if 0 < sz then { s with avalanche_sizes := s.avalanche_sizes ++ [sz] } else s

/-- One drop-stabilize-record cycle, as performed by the driver loop
(lines 244-249): add_sand, then topple to completion, then record. -/
def dropStep (s : SimState n) (d : ℤ × ℤ) : SimState n :=
  let s1 := add_sand d.1 d.2 s
  let r := topple s1.grid
  record_avalanche r.2 { s1 with grid := r.1, lost := s1.lost + toppleLost s1.grid }

/-- A whole simulation run over a list of drop coordinates. -/
def runSim (s : SimState n) (ds : List (ℤ × ℤ)) : SimState n :=
  ds.foldl dropStep s

/-- Receiver relation: cell c, when it topples, sends one grain to cell q.
The four disjuncts match the four guarded writes of lines 91-94; the bound
checks are implicit in q being a valid cell. -/
def hits (c q : Fin n × Fin n) : Prop :=
  (c.1.val = q.1.val ∧ q.2.val + 1 = c.2.val) ∨
  (c.1.val = q.1.val ∧ c.2.val + 1 = q.2.val) ∨
  (c.2.val = q.2.val ∧ q.1.val + 1 = c.1.val) ∨
  (c.2.val = q.2.val ∧ c.1.val + 1 = q.1.val)

instance (c q : Fin n × Fin n) : Decidable (hits c q) := by
  unfold hits; infer_instance

/-- Number of grains cell p receives in a pass that topples the cells of L. -/
def recvCount (L : List (Fin n × Fin n)) (p : Fin n × Fin n) : ℕ :=
  (L.map fun c => if hits c p then 1 else 0).sum

/-- Weighted total a toppling cell c delivers, for an arbitrary cell weight. -/
def hitSum (f : Fin n × Fin n → ℕ) (c : Fin n × Fin n) : ℕ :=
  Finset.sum Finset.univ fun p : Fin n × Fin n => if hits c p then f p else 0

/-- Weighted grid mass for an arbitrary cell weight; mass and phi are the
instances at weight one and at cellWeight. -/
def wmass (f : Fin n × Fin n → ℕ) (g : Grid n) : ℕ :=
  Finset.sum Finset.univ fun p : Fin n × Fin n => g p.1 p.2 * f p

/-- The stabilization loop again, but with the per-pass enumeration of the
unstable set produced by an arbitrary selection strategy sel instead of the
row-major order of np.where; used to state that the pass-synchronous update
makes the processing order irrelevant. -/
def toppleAuxOrd (sel : Grid n → List (Fin n × Fin n)) : ℕ → Grid n → Grid n × ℕ
  | 0, g => (g, 0)
  | fuel + 1, g =>
    if anyUnstable g then
      if (sel g).length = 0 then (g, 0)
      else
        let r := toppleAuxOrd sel fuel (passList g (sel g))
        (r.1, (sel g).length + r.2)
    else (g, 0)

/-- A valid enumeration strategy: on every grid it lists each unstable cell
exactly once, in an arbitrary order. -/
def SelSpec (sel : Grid n → List (Fin n × Fin n)) : Prop :=
  ∀ g : Grid n, (sel g).Nodup ∧ ∀ p : Fin n × Fin n, p ∈ sel g ↔ 4 ≤ g p.1 p.2

/-- Concrete corner-toppling grid used to analyze the boundary behavior of
the redistribution step: a 3 x 3 grid whose corner cell (0,0) holds 4 grains. -/
def cornerGrid : Grid 3 := fun i j => if i.val = 0 ∧ j.val = 0 then 4 else 0

/-- Fresh 5 x 5 simulation state for the concrete interior-topple scenario. -/
def initC8 : SimState 5 := ⟨fun _ _ => 0, 0, [], 0⟩

/-- Four drops onto the interior cell (2,2). -/
def dropsC8 : List (ℤ × ℤ) := [(2, 2), (2, 2), (2, 2), (2, 2)]

/-- The first three of those drops. -/
def drops3C8 : List (ℤ × ℤ) := [(2, 2), (2, 2), (2, 2)]

end Sandpile

namespace Stats

/-!
Model of the statistics branch of plot_avalanches_enhanced (lines 129-215).
The source computes with IEEE floats; here float arithmetic is modelled by
exact rationals, and the transcendental ingredients (the log-spaced bin
edges from np.logspace, the geometric-mean bin centers from np.sqrt, and
np.log10) are taken as parameters, since none of the branch structure under
verification depends on their values.
-/

/-- Histogram counts of np.histogram(data, bins = edges): bin j counts data
points d with edge j <= d < edge j+1; the last bin is closed on the right. -/
def histCounts (data : List ℚ) : List ℚ → List ℕ
  | e1 :: e2 :: rest =>
    (if rest.isEmpty then data.countP fun d => decide (e1 ≤ d) && decide (d ≤ e2)
     else data.countP fun d => decide (e1 ≤ d) && decide (d < e2)) ::
      histCounts data (e2 :: rest)
  | _ => []

/-- Ordinary least-squares regression line through a list of points,
returning (slope, intercept); models scipy.stats.linregress (line 181). -/
def linregress (pts : List (ℚ × ℚ)) : ℚ × ℚ :=
  let N : ℚ := pts.length
  let sx := (pts.map fun p => p.1).sum
  let sy := (pts.map fun p => p.2).sum
  let sxx := (pts.map fun p => p.1 * p.1).sum
  let sxy := (pts.map fun p => p.1 * p.2).sum
  let m := (N * sxy - sx * sy) / (N * sxx - sx * sx)
  (m, (sy - m * sx) / N)

/-- Outcome of the statistics computation: no data at all (line 136), not
enough non-empty bins to fit (line 160, scatter only), or a fitted line with
slope and intercept (lines 164-202).  The insufficient and fitted outcomes
carry the non-empty (center, count) pairs that are displayed. -/
inductive FitOutcome where
  | noData : FitOutcome
  | insufficient (pairs : List (ℚ × ℕ)) : FitOutcome
  | fitted (slope intercept : ℚ) (pairs : List (ℚ × ℕ)) : FitOutcome
deriving DecidableEq

/-- The non-empty (center, count) pairs of the histogram (lines 153-158):
bin centers from the given geometric-mean function gmean zipped with the bin
counts, keeping only bins with positive count. -/
def filteredPairs (gmean : ℚ → ℚ → ℚ) (edges : List ℚ) (sizes : List ℕ) :
    List (ℚ × ℕ) :=
  let counts := histCounts (sizes.map fun s => (s : ℚ)) edges
  let centers := (edges.zip edges.tail).map fun pr => gmean pr.1 pr.2
  (centers.zip counts).filter fun pr => decide (0 < pr.2)

/-- The decision structure of plot_avalanches_enhanced: empty series reports
no data (line 136); fewer than 2 non-empty bins reports insufficient data
and only exposes the (center, count) pairs (lines 160-163); otherwise the
log-log regression is computed on the retained pairs (lines 164-202). -/
def plot_avalanches_enhanced (gmean : ℚ → ℚ → ℚ) (logTen : ℚ → ℚ)
    (edges : List ℚ) (sizes : List ℕ) : FitOutcome :=
  if sizes = [] then FitOutcome.noData
  else
    let pairs := filteredPairs gmean edges sizes
    if pairs.length < 2 then FitOutcome.insufficient pairs
    else
      let pts := pairs.map fun pr => (logTen pr.1, logTen ((pr.2 : ℚ)))
      let mb := linregress pts
      FitOutcome.fitted mb.1 mb.2 pairs

end Stats
namespace Sandpile

variable {n : ℕ}

theorem mem_unstableList {g : Grid n} {p : Fin n × Fin n} :
    p ∈ unstableList g ↔ 4 ≤ g p.1 p.2 := by
  unfold unstableList
  constructor
  · intro h
    rcases List.mem_flatMap.1 h with ⟨y, _, hy⟩
    rcases List.mem_filterMap.1 hy with ⟨x, _, hx⟩
    by_cases h4 : 4 ≤ g y x
    · simp only [h4, if_pos, Option.mem_def, Option.some.injEq] at hx
      cases hx; simpa using h4
    · simp [h4] at hx
  · intro h
    refine List.mem_flatMap.2 ⟨p.1, List.mem_finRange _, ?_⟩
    refine List.mem_filterMap.2 ⟨p.2, List.mem_finRange _, ?_⟩
    simp [h]

theorem fst_of_mem_row {g : Grid n} {y : Fin n} {p : Fin n × Fin n}
    (hp : p ∈ (List.finRange n).filterMap fun x =>
      if 4 ≤ g y x then some (y, x) else none) : p.1 = y := by
  rcases List.mem_filterMap.1 hp with ⟨x, _, hx⟩
  by_cases h4 : 4 ≤ g y x
  · simp only [h4, if_pos, Option.mem_def, Option.some.injEq] at hx
    rw [← hx]
  · simp [h4] at hx

theorem nodup_unstableList (g : Grid n) : (unstableList g).Nodup := by
  unfold unstableList
  refine List.nodup_flatMap.2 ⟨?_, ?_⟩
  · intro y _
    refine List.Nodup.filterMap ?_ (List.nodup_finRange n)
    intro a b p ha hb
    by_cases h4 : 4 ≤ g y a
    · simp only [h4, if_pos, Option.mem_def, Option.some.injEq] at ha
      by_cases h4b : 4 ≤ g y b
      · simp only [h4b, if_pos, Option.mem_def, Option.some.injEq] at hb
        rw [← ha] at hb
        exact ((Prod.ext_iff.1 hb).2).symm
      · simp [h4b] at hb
    · simp [h4] at ha
  · refine ((List.nodup_finRange n).imp ?_)
    intro y z hyz
    intro p hp hq
    have h1 : p.1 = y := fst_of_mem_row hp
    have h2 : p.1 = z := fst_of_mem_row hq
    exact hyz (h1 ▸ h2 ▸ rfl)

end Sandpile

namespace Sandpile

variable {n : ℕ}

theorem addNeighbors_apply (A : Grid n) (c q : Fin n × Fin n) :
    addNeighbors A c.1.val c.2.val q.1 q.2 =
      A q.1 q.2 + (if hits c q then 1 else 0) := by
  have hy := c.1.isLt
  have hx := c.2.isLt
  have hqy := q.1.isLt
  have hqx := q.2.isLt
  by_cases h1 : 0 < c.2.val <;> by_cases h2 : c.2.val < n - 1 <;>
    by_cases h3 : 0 < c.1.val <;> by_cases h4 : c.1.val < n - 1 <;>
    simp only [addNeighbors, bump, hits, h1, h2, h3, h4, if_true, if_false] <;>
    split_ifs <;> omega

theorem recvCount_cons (c : Fin n × Fin n) (L : List (Fin n × Fin n))
    (p : Fin n × Fin n) :
    recvCount (c :: L) p = (if hits c p then 1 else 0) + recvCount L p := by
  simp [recvCount]

theorem foldl_passStep_snd (L : List (Fin n × Fin n)) :
    ∀ (G A : Grid n) (q : Fin n × Fin n),
      (L.foldl passStep (G, A)).2 q.1 q.2 = A q.1 q.2 + recvCount L q := by
  induction L with
  | nil => intro G A q; simp [recvCount]
  | cons c L ih =>
    intro G A q
    rw [List.foldl_cons]
    have := ih (passStep (G, A) c).1 (passStep (G, A) c).2 q
    rw [Prod.mk.eta] at this
    rw [this]
    show addNeighbors A c.1.val c.2.val q.1 q.2 + recvCount L q = _
    rw [addNeighbors_apply, recvCount_cons]
    omega

theorem foldl_passStep_fst (L : List (Fin n × Fin n)) :
    ∀ (G A : Grid n) (q : Fin n × Fin n), L.Nodup →
      (L.foldl passStep (G, A)).1 q.1 q.2 =
        G q.1 q.2 - (if q ∈ L then 4 else 0) := by
  induction L with
  | nil => intro G A q _; simp
  | cons c L ih =>
    intro G A q hnd
    rcases List.nodup_cons.1 hnd with ⟨hcL, hndL⟩
    rw [List.foldl_cons]
    have := ih (passStep (G, A) c).1 (passStep (G, A) c).2 q hndL
    rw [Prod.mk.eta] at this
    rw [this]
    show toppleCell G c q.1 q.2 - _ = _
    by_cases hqc : q = c
    · subst hqc
      have hmem : q ∉ L := hcL
      simp [toppleCell, List.mem_cons, hmem]
    · have : ¬(q.1 = c.1 ∧ q.2 = c.2) := fun h => hqc (Prod.ext_iff.2 h)
      simp only [toppleCell, this, if_false, List.mem_cons, hqc, false_or]

theorem passList_apply (g : Grid n) (L : List (Fin n × Fin n)) (hnd : L.Nodup)
    (q : Fin n × Fin n) :
    passList g L q.1 q.2 =
      (g q.1 q.2 - (if q ∈ L then 4 else 0)) + recvCount L q := by
  unfold passList
  rw [foldl_passStep_fst L g _ q hnd, foldl_passStep_snd L g _ q]
  simp

end Sandpile

namespace Sandpile

variable {n : ℕ}

theorem sum_range_ite_eq (Y : ℕ) (hY : Y < n) (A : ℕ → ℕ) :
    (∑ i ∈ Finset.range n, if Y = i then A i else 0) = A Y := by
  rw [Finset.sum_ite_eq (Finset.range n) Y A]
  simp [Finset.mem_range, hY]

theorem sum_range_ite_pred (X : ℕ) (hX : X < n) (A : ℕ → ℕ) :
    (∑ j ∈ Finset.range n, if j + 1 = X then A j else 0) =
      if 0 < X then A (X - 1) else 0 := by
  cases X with
  | zero => simp
  | succ k =>
    simp only [add_left_inj]
    rw [Finset.sum_ite_eq' (Finset.range n) k A]
    have hk : k ∈ Finset.range n := Finset.mem_range.2 (by omega)
    simp [hk]

theorem sum_range_ite_succ (X : ℕ) (hX : X < n) (A : ℕ → ℕ) :
    (∑ j ∈ Finset.range n, if X + 1 = j then A j else 0) =
      if X < n - 1 then A (X + 1) else 0 := by
  rw [Finset.sum_ite_eq (Finset.range n) (X + 1) A]
  have : X + 1 ∈ Finset.range n ↔ X < n - 1 := by
    rw [Finset.mem_range]; omega
  rw [if_congr this rfl rfl]

theorem hitSum_eq (F : ℕ → ℕ → ℕ) (c : Fin n × Fin n) :
    hitSum (fun p => F p.1.val p.2.val) c =
      (if 0 < c.2.val then F c.1.val (c.2.val - 1) else 0) +
      (if c.2.val < n - 1 then F c.1.val (c.2.val + 1) else 0) +
      (if 0 < c.1.val then F (c.1.val - 1) c.2.val else 0) +
      (if c.1.val < n - 1 then F (c.1.val + 1) c.2.val else 0) := by
  have hY := c.1.isLt
  have hX := c.2.isLt
  unfold hitSum
  rw [Fintype.sum_prod_type]
  have split : ∀ i j : Fin n,
      (if hits c (i, j) then F (i, j).1.val (i, j).2.val else 0) =
        ((if c.1.val = i.val ∧ j.val + 1 = c.2.val then F i.val j.val else 0) +
         (if c.1.val = i.val ∧ c.2.val + 1 = j.val then F i.val j.val else 0)) +
        ((if c.2.val = j.val ∧ i.val + 1 = c.1.val then F i.val j.val else 0) +
         (if c.2.val = j.val ∧ c.1.val + 1 = i.val then F i.val j.val else 0)) := by
    intro i j
    simp only [hits]
    split_ifs <;> omega
  simp only [split, Finset.sum_add_distrib]
  have conv2 : ∀ (G : ℕ → ℕ → ℕ), (∑ i : Fin n, ∑ j : Fin n, G i.val j.val) =
      ∑ i ∈ Finset.range n, ∑ j ∈ Finset.range n, G i j := by
    intro G
    have inner : ∀ i : Fin n, (∑ j : Fin n, G i.val j.val) =
        ∑ j ∈ Finset.range n, G i.val j :=
      fun i => Fin.sum_univ_eq_sum_range (G i.val) n
    rw [Finset.sum_congr rfl fun i _ => inner i]
    exact Fin.sum_univ_eq_sum_range (fun iv => ∑ j ∈ Finset.range n, G iv j) n
  have hT1 : (∑ i : Fin n, ∑ j : Fin n,
      if c.1.val = i.val ∧ j.val + 1 = c.2.val then F i.val j.val else 0) =
      if 0 < c.2.val then F c.1.val (c.2.val - 1) else 0 := by
    rw [conv2 fun i j => if c.1.val = i ∧ j + 1 = c.2.val then F i j else 0]
    simp only [ite_and, Finset.sum_ite_irrel, Finset.sum_const_zero]
    rw [sum_range_ite_eq c.1.val hY]
    exact sum_range_ite_pred c.2.val hX _
  have hT2 : (∑ i : Fin n, ∑ j : Fin n,
      if c.1.val = i.val ∧ c.2.val + 1 = j.val then F i.val j.val else 0) =
      if c.2.val < n - 1 then F c.1.val (c.2.val + 1) else 0 := by
    rw [conv2 fun i j => if c.1.val = i ∧ c.2.val + 1 = j then F i j else 0]
    simp only [ite_and, Finset.sum_ite_irrel, Finset.sum_const_zero]
    rw [sum_range_ite_eq c.1.val hY]
    exact sum_range_ite_succ c.2.val hX _
  have hT3 : (∑ i : Fin n, ∑ j : Fin n,
      if c.2.val = j.val ∧ i.val + 1 = c.1.val then F i.val j.val else 0) =
      if 0 < c.1.val then F (c.1.val - 1) c.2.val else 0 := by
    rw [conv2 fun i j => if c.2.val = j ∧ i + 1 = c.1.val then F i j else 0]
    rw [Finset.sum_comm]
    simp only [ite_and, Finset.sum_ite_irrel, Finset.sum_const_zero]
    rw [sum_range_ite_eq c.2.val hX]
    exact sum_range_ite_pred c.1.val hY _
  have hT4 : (∑ i : Fin n, ∑ j : Fin n,
      if c.2.val = j.val ∧ c.1.val + 1 = i.val then F i.val j.val else 0) =
      if c.1.val < n - 1 then F (c.1.val + 1) c.2.val else 0 := by
    rw [conv2 fun i j => if c.2.val = j ∧ c.1.val + 1 = i then F i j else 0]
    rw [Finset.sum_comm]
    simp only [ite_and, Finset.sum_ite_irrel, Finset.sum_const_zero]
    rw [sum_range_ite_eq c.2.val hX]
    exact sum_range_ite_succ c.1.val hY _
  rw [hT1, hT2, hT3, hT4]
  omega

end Sandpile

namespace Sandpile

variable {n : ℕ}

theorem hitCount_eq_degree (c : Fin n × Fin n) :
    hitSum (fun _ => 1) c = degree n c := by
  have h := hitSum_eq (fun _ _ => 1) c
  simpa [degree] using h

theorem degree_le_four (c : Fin n × Fin n) : degree n c ≤ 4 := by
  unfold degree
  split_ifs <;> omega

theorem uu_pos (k : ℕ) (h : k < n) : 1 ≤ uu n k := by
  unfold uu
  have h1 : 0 < k + 1 := by omega
  have h2 : 0 < n - k := by omega
  exact Nat.mul_pos h1 h2

theorem uu_colSum (x : ℕ) (hx : x < n) :
    (if 0 < x then uu n (x - 1) else 0) + (if x < n - 1 then uu n (x + 1) else 0) + 2
      ≤ 2 * uu n x := by
  by_cases h1 : 0 < x <;> by_cases h2 : x < n - 1
  · rw [if_pos h1, if_pos h2]
    obtain ⟨a, rfl⟩ : ∃ a, x = a + 1 := ⟨x - 1, by omega⟩
    obtain ⟨m, rfl⟩ : ∃ m, n = a + 3 + m := ⟨n - (a + 3), by omega⟩
    unfold uu
    have e1 : a + 1 - 1 = a := by omega
    have e2 : a + 3 + m - a = m + 3 := by omega
    have e3 : a + 3 + m - (a + 1) = m + 2 := by omega
    have e4 : a + 3 + m - (a + 1 + 1) = m + 1 := by omega
    rw [e1, e2, e3, e4]
    refine le_of_eq ?_
    ring
  · rw [if_pos h1, if_neg h2]
    obtain ⟨b, rfl⟩ : ∃ b, n = b + 2 := ⟨n - 2, by omega⟩
    have hx2 : x = b + 1 := by omega
    subst hx2
    unfold uu
    have e1 : b + 1 - 1 = b := by omega
    have e2 : b + 2 - b = 2 := by omega
    have e3 : b + 2 - (b + 1) = 1 := by omega
    rw [e1, e2, e3]
    refine le_of_eq ?_
    ring
  · rw [if_neg h1, if_pos h2]
    have hx0 : x = 0 := by omega
    subst hx0
    obtain ⟨b, rfl⟩ : ∃ b, n = b + 2 := ⟨n - 2, by omega⟩
    unfold uu
    have e2 : b + 2 - (0 + 1) = b + 1 := by omega
    have e3 : b + 2 - 0 = b + 2 := by omega
    rw [e2, e3]
    refine le_of_eq ?_
    ring
  · rw [if_neg h1, if_neg h2]
    have hx0 : x = 0 := by omega
    have hn : n = 1 := by omega
    subst hx0
    subst hn
    simp [uu]

theorem hitSumW_le (c : Fin n × Fin n) :
    hitSum (cellWeight n) c + 4 ≤ 4 * cellWeight n c := by
  have hx := c.2.isLt
  have hy := c.1.isLt
  have hux := uu_pos c.2.val hx
  have huy := uu_pos c.1.val hy
  have hcx := uu_colSum c.2.val hx
  have hcy := uu_colSum c.1.val hy
  have heq := hitSum_eq (fun y x => uu n y + uu n x) c
  unfold cellWeight
  rw [show (fun p : Fin n × Fin n => uu n p.1.val + uu n p.2.val) =
    (fun p : Fin n × Fin n => (fun y x => uu n y + uu n x) p.1.val p.2.val) from rfl, heq]
  split_ifs at hcx hcy ⊢ <;> omega

end Sandpile

namespace Sandpile

variable {n : ℕ}

theorem list_sum_map_add {α : Type} (l : List α) (f h : α → ℕ) :
    (l.map fun x => f x + h x).sum = (l.map f).sum + (l.map h).sum := by
  induction l with
  | nil => simp
  | cons a l ih => simp [ih]; omega

theorem list_sum_map_le {α : Type} (l : List α) (f h : α → ℕ)
    (hle : ∀ x ∈ l, f x ≤ h x) : (l.map f).sum ≤ (l.map h).sum := by
  induction l with
  | nil => simp
  | cons a l ih =>
    simp only [List.map_cons, List.sum_cons]
    have h1 := hle a (by simp)
    have h2 := ih fun x hx => hle x (by simp [hx])
    omega

theorem list_sum_map_const {α : Type} (l : List α) (k : ℕ) :
    (l.map fun _ => k).sum = k * l.length := by
  induction l with
  | nil => simp
  | cons a l ih => simp [ih]; ring

theorem sum_recvCount_mul (f : Fin n × Fin n → ℕ) (L : List (Fin n × Fin n)) :
    (∑ q : Fin n × Fin n, recvCount L q * f q) = (L.map fun c => hitSum f c).sum := by
  induction L with
  | nil => simp [recvCount]
  | cons c L ih =>
    have point : ∀ q : Fin n × Fin n, recvCount (c :: L) q * f q =
        (if hits c q then f q else 0) + recvCount L q * f q := by
      intro q
      rw [recvCount_cons]
      by_cases h : hits c q <;> simp [h, add_mul]
    simp only [point]
    rw [Finset.sum_add_distrib, ih]
    simp [hitSum]

theorem sum_ite_mem_mul (L : List (Fin n × Fin n)) (hnd : L.Nodup)
    (f : Fin n × Fin n → ℕ) :
    (∑ q : Fin n × Fin n, (if q ∈ L then 4 else 0) * f q) =
      (L.map fun c => 4 * f c).sum := by
  have point : ∀ q : Fin n × Fin n, (if q ∈ L then 4 else 0) * f q =
      if q ∈ L then 4 * f q else 0 := by
    intro q
    by_cases h : q ∈ L <;> simp [h]
  simp only [point]
  have : (∑ q : Fin n × Fin n, if q ∈ L then 4 * f q else 0) =
      ∑ q ∈ L.toFinset, 4 * f q := by
    simp only [← List.mem_toFinset]
    rw [Finset.sum_ite_mem]
    simp
  rw [this, List.sum_toFinset _ hnd]

theorem wmass_passList (f : Fin n × Fin n → ℕ) (g : Grid n) :
    wmass f (passList g (unstableList g)) + ((unstableList g).map fun c => 4 * f c).sum =
      wmass f g + ((unstableList g).map fun c => hitSum f c).sum := by
  have hnd := nodup_unstableList g
  have point : ∀ q : Fin n × Fin n,
      passList g (unstableList g) q.1 q.2 * f q =
        (g q.1 q.2 - (if q ∈ unstableList g then 4 else 0)) * f q +
          recvCount (unstableList g) q * f q := by
    intro q
    rw [passList_apply g _ hnd q, add_mul]
  unfold wmass
  simp only [point]
  rw [Finset.sum_add_distrib, sum_recvCount_mul]
  have hAux : (∑ q : Fin n × Fin n,
      (g q.1 q.2 - (if q ∈ unstableList g then 4 else 0)) * f q) +
        ((unstableList g).map fun c => 4 * f c).sum = wmass f g := by
    rw [← sum_ite_mem_mul (unstableList g) hnd f, ← Finset.sum_add_distrib]
    unfold wmass
    refine Finset.sum_congr rfl ?_
    intro q _
    rw [← add_mul]
    congr 1
    by_cases h : q ∈ unstableList g
    · rw [if_pos h]
      exact Nat.sub_add_cancel (mem_unstableList.1 h)
    · rw [if_neg h]
      simp
  unfold wmass at hAux
  omega

end Sandpile

namespace Sandpile

variable {n : ℕ}

theorem mass_eq_wmass (g : Grid n) : mass g = wmass (fun _ => 1) g := by
  simp [mass, wmass]

theorem phi_eq_wmass (g : Grid n) : phi g = wmass (cellWeight n) g := rfl

theorem mass_passList (g : Grid n) :
    mass (passList g (unstableList g)) + lostInPass g = mass g := by
  have core := wmass_passList (fun _ => 1) g
  simp only [mul_one] at core
  have hdeg : ((unstableList g).map fun c => hitSum (fun _ => 1) c) =
      ((unstableList g).map fun c => degree n c) :=
    List.map_congr_left fun c _ => hitCount_eq_degree c
  rw [hdeg] at core
  have hsplit : ((unstableList g).map fun c => degree n c).sum + lostInPass g =
      ((unstableList g).map fun _ => (4 : ℕ)).sum := by
    unfold lostInPass
    rw [← list_sum_map_add]
    refine congrArg List.sum (List.map_congr_left ?_)
    intro c _
    have := degree_le_four (n := n) c
    omega
  rw [mass_eq_wmass (passList g (unstableList g)), mass_eq_wmass g]
  omega

theorem phi_passList_lt (g : Grid n) (h : anyUnstable g) :
    phi (passList g (unstableList g)) < phi g := by
  have core := wmass_passList (cellWeight n) g
  have hle : ((unstableList g).map fun c => hitSum (cellWeight n) c).sum +
      ((unstableList g).map fun _ => (4 : ℕ)).sum ≤
      ((unstableList g).map fun c => 4 * cellWeight n c).sum := by
    rw [← list_sum_map_add]
    refine list_sum_map_le _ _ _ ?_
    intro c _
    exact hitSumW_le c
  have hlen : 0 < (unstableList g).length := by
    rcases h with ⟨y, x, h4⟩
    have hm : (y, x) ∈ unstableList g := mem_unstableList.2 h4
    exact List.length_pos_of_mem hm
  have hconst : ((unstableList g).map fun _ => (4 : ℕ)).sum =
      4 * (unstableList g).length := list_sum_map_const _ 4
  rw [phi_eq_wmass (passList g (unstableList g)), phi_eq_wmass g]
  omega

theorem stable_iff_not_any (g : Grid n) : stable g ↔ ¬ anyUnstable g := by
  unfold stable anyUnstable
  constructor
  · intro hs hany
    rcases hany with ⟨y, x, h4⟩
    have := hs y x
    omega
  · intro h y x
    by_contra hc
    exact h ⟨y, x, by omega⟩

theorem toppleAux_of_stable (fuel : ℕ) (g : Grid n) (h : ¬ anyUnstable g) :
    toppleAux fuel g = (g, 0) := by
  cases fuel with
  | zero => rfl
  | succ f => simp [toppleAux, h]

theorem lostAux_of_stable (fuel : ℕ) (g : Grid n) (h : ¬ anyUnstable g) :
    lostAux fuel g = 0 := by
  cases fuel with
  | zero => rfl
  | succ f => simp [lostAux, h]

theorem unstableList_length_ne_zero (g : Grid n) (h : anyUnstable g) :
    (unstableList g).length ≠ 0 := by
  rcases h with ⟨y, x, h4⟩
  have hm : (y, x) ∈ unstableList g := mem_unstableList.2 h4
  have := List.length_pos_of_mem hm
  omega

theorem phi_zero_stable (g : Grid n) (hp : phi g = 0) : stable g := by
  intro y x
  by_contra hc
  have hle : g y x * cellWeight n (y, x) ≤ phi g := by
    simpa using Finset.single_le_sum
      (f := fun p : Fin n × Fin n => g p.1 p.2 * cellWeight n p)
      (fun i _ => Nat.zero_le _) (Finset.mem_univ (y, x))
  have hw : 0 < cellWeight n (y, x) := by
    have h1 := uu_pos (n := n) y.val y.isLt
    show 0 < uu n y.val + uu n x.val
    omega
  have hpos : 0 < g y x * cellWeight n (y, x) := Nat.mul_pos (by omega) hw
  omega

theorem toppleAux_stable_result :
    ∀ (fuel : ℕ) (g : Grid n), phi g ≤ fuel → stable ((toppleAux fuel g).1) := by
  intro fuel
  induction fuel with
  | zero =>
    intro g hf
    exact phi_zero_stable g (by omega)
  | succ f ih =>
    intro g hf
    by_cases h : anyUnstable g
    · have hlen := unstableList_length_ne_zero g h
      have hlt := phi_passList_lt g h
      simp only [toppleAux, if_pos h, if_neg hlen]
      exact ih (passList g (unstableList g)) (by omega)
    · rw [toppleAux_of_stable _ _ h]
      exact (stable_iff_not_any g).2 h

theorem toppleAux_fuel_irrel :
    ∀ (k : ℕ) (g : Grid n) (fuel : ℕ), phi g ≤ k → k ≤ fuel →
      toppleAux fuel g = toppleAux k g := by
  intro k
  induction k with
  | zero =>
    intro g fuel hp _
    have hs : ¬ anyUnstable g :=
      (stable_iff_not_any g).1 (phi_zero_stable g (by omega))
    rw [toppleAux_of_stable fuel g hs]
    rfl
  | succ k ih =>
    intro g fuel hp hk
    by_cases h : anyUnstable g
    · obtain ⟨f2, rfl⟩ : ∃ f2, fuel = f2 + 1 := ⟨fuel - 1, by omega⟩
      have hlen := unstableList_length_ne_zero g h
      have hlt := phi_passList_lt g h
      simp only [toppleAux, if_pos h, if_neg hlen]
      rw [ih (passList g (unstableList g)) f2 (by omega) (by omega)]
    · rw [toppleAux_of_stable _ _ h, toppleAux_of_stable _ _ h]

theorem mass_toppleAux :
    ∀ (fuel : ℕ) (g : Grid n), mass ((toppleAux fuel g).1) + lostAux fuel g = mass g := by
  intro fuel
  induction fuel with
  | zero => intro g; simp [toppleAux, lostAux]
  | succ f ih =>
    intro g
    by_cases h : anyUnstable g
    · by_cases hlen : (unstableList g).length = 0
      · simp [toppleAux, lostAux, h, hlen]
      · simp only [toppleAux, lostAux, if_pos h, if_neg hlen]
        have h1 := ih (passList g (unstableList g))
        have h2 := mass_passList g
        omega
    · rw [toppleAux_of_stable _ _ h, lostAux_of_stable _ _ h]
      rfl

theorem mass_topple (g : Grid n) : mass (topple g).1 + toppleLost g = mass g :=
  mass_toppleAux (phi g) g

end Sandpile

namespace Sandpile

variable {n : ℕ}

theorem sum_pair_range (G : ℕ → ℕ → ℕ) :
    (∑ i : Fin n, ∑ j : Fin n, G i.val j.val) =
      ∑ i ∈ Finset.range n, ∑ j ∈ Finset.range n, G i j := by
  have inner : ∀ i : Fin n, (∑ j : Fin n, G i.val j.val) =
      ∑ j ∈ Finset.range n, G i.val j :=
    fun i => Fin.sum_univ_eq_sum_range (G i.val) n
  rw [Finset.sum_congr rfl fun i _ => inner i]
  exact Fin.sum_univ_eq_sum_range (fun iv => ∑ j ∈ Finset.range n, G iv j) n

theorem mass_bump (g : Grid n) (y x : ℕ) (hy : y < n) (hx : x < n) :
    mass (bump g y x) = mass g + 1 := by
  unfold mass bump
  have point : ∀ p : Fin n × Fin n,
      (if p.1.val = y ∧ p.2.val = x then g p.1 p.2 + 1 else g p.1 p.2) =
        g p.1 p.2 + (if p.1.val = y ∧ p.2.val = x then 1 else 0) := by
    intro p
    by_cases h : p.1.val = y ∧ p.2.val = x <;> simp [h]
  simp only [point]
  rw [Finset.sum_add_distrib]
  congr 1
  rw [Fintype.sum_prod_type]
  dsimp only
  rw [sum_pair_range (fun iv jv => if iv = y ∧ jv = x then (1 : ℕ) else 0)]
  simp only [ite_and, Finset.sum_ite_irrel, Finset.sum_const_zero]
  rw [Finset.sum_ite_eq' (Finset.range n) y
    (fun _ => ∑ j ∈ Finset.range n, if j = x then (1 : ℕ) else 0)]
  rw [if_pos (Finset.mem_range.2 hy)]
  rw [Finset.sum_ite_eq' (Finset.range n) x (fun _ => (1 : ℕ))]
  rw [if_pos (Finset.mem_range.2 hx)]

theorem record_avalanche_grid (sz : ℕ) (s : SimState n) :
    (record_avalanche sz s).grid = s.grid := by
  unfold record_avalanche
  split_ifs <;> rfl

theorem record_avalanche_drops (sz : ℕ) (s : SimState n) :
    (record_avalanche sz s).total_drops = s.total_drops := by
  unfold record_avalanche
  split_ifs <;> rfl

theorem record_avalanche_lost (sz : ℕ) (s : SimState n) :
    (record_avalanche sz s).lost = s.lost := by
  unfold record_avalanche
  split_ifs <;> rfl

theorem add_sand_cases (x y : ℤ) (s : SimState n) :
    (mass (add_sand x y s).grid = mass s.grid + 1 ∧
      (add_sand x y s).total_drops = s.total_drops + 1 ∧
      (add_sand x y s).lost = s.lost) ∨ add_sand x y s = s := by
  unfold add_sand
  by_cases h : 0 ≤ x ∧ x < (n : ℤ) ∧ 0 ≤ y ∧ y < (n : ℤ)
  · left
    rw [if_pos h]
    refine ⟨?_, rfl, rfl⟩
    exact mass_bump s.grid y.toNat x.toNat (by omega) (by omega)
  · right
    rw [if_neg h]

theorem dropStep_conservation (s : SimState n) (d : ℤ × ℤ) :
    mass (dropStep s d).grid + (dropStep s d).lost + s.total_drops =
      mass s.grid + s.lost + (dropStep s d).total_drops := by
  unfold dropStep
  rw [record_avalanche_grid, record_avalanche_drops, record_avalanche_lost]
  dsimp only
  have h1 := mass_topple (add_sand d.1 d.2 s).grid
  rcases add_sand_cases d.1 d.2 s with ⟨hm, hd, hl⟩ | heq
  · rw [hd, hl] at *
    omega
  · rw [heq] at h1 ⊢
    omega

theorem runSim_conservation (ds : List (ℤ × ℤ)) :
    ∀ s : SimState n,
      mass (runSim s ds).grid + (runSim s ds).lost + s.total_drops =
        mass s.grid + s.lost + (runSim s ds).total_drops := by
  induction ds with
  | nil => intro s; simp [runSim]
  | cons d ds ih =>
    intro s
    have hrw : runSim s (d :: ds) = runSim (dropStep s d) ds := rfl
    rw [hrw]
    have h1 := ih (dropStep s d)
    have h2 := dropStep_conservation s d
    omega

end Sandpile

namespace Sandpile

variable {n : ℕ}

theorem recvCount_ext (L1 L2 : List (Fin n × Fin n)) (h1 : L1.Nodup)
    (h2 : L2.Nodup) (hmem : ∀ c, c ∈ L1 ↔ c ∈ L2) (p : Fin n × Fin n) :
    recvCount L1 p = recvCount L2 p := by
  have hfs : L1.toFinset = L2.toFinset := by
    ext c
    simp [List.mem_toFinset, hmem c]
  unfold recvCount
  rw [← List.sum_toFinset _ h1, ← List.sum_toFinset _ h2, hfs]

theorem length_ext (L1 L2 : List (Fin n × Fin n)) (h1 : L1.Nodup)
    (h2 : L2.Nodup) (hmem : ∀ c, c ∈ L1 ↔ c ∈ L2) : L1.length = L2.length := by
  have hfs : L1.toFinset = L2.toFinset := by
    ext c
    simp [List.mem_toFinset, hmem c]
  rw [← List.toFinset_card_of_nodup h1, ← List.toFinset_card_of_nodup h2, hfs]

theorem passList_ext (g : Grid n) (L1 L2 : List (Fin n × Fin n)) (h1 : L1.Nodup)
    (h2 : L2.Nodup) (hmem : ∀ c, c ∈ L1 ↔ c ∈ L2) :
    passList g L1 = passList g L2 := by
  funext i j
  rw [passList_apply g L1 h1 (i, j), passList_apply g L2 h2 (i, j)]
  rw [recvCount_ext L1 L2 h1 h2 hmem (i, j)]
  congr 1
  congr 1
  rw [if_congr (hmem (i, j)) rfl rfl]

theorem toppleAuxOrd_eq (sel : Grid n → List (Fin n × Fin n)) (hsel : SelSpec sel) :
    ∀ (fuel : ℕ) (g : Grid n), toppleAuxOrd sel fuel g = toppleAux fuel g := by
  intro fuel
  induction fuel with
  | zero => intro g; rfl
  | succ f ih =>
    intro g
    rcases hsel g with ⟨hnd, hmem⟩
    have hmem2 : ∀ c, c ∈ sel g ↔ c ∈ unstableList g := by
      intro c
      rw [hmem c, mem_unstableList]
    have hlen : (sel g).length = (unstableList g).length :=
      length_ext _ _ hnd (nodup_unstableList g) hmem2
    have hpass : passList g (sel g) = passList g (unstableList g) :=
      passList_ext g _ _ hnd (nodup_unstableList g) hmem2
    by_cases h : anyUnstable g
    · simp only [toppleAuxOrd, toppleAux, if_pos h, hlen, hpass, ih]
    · simp only [toppleAuxOrd, toppleAux, if_neg h]

end Sandpile

namespace Sandpile

variable {n : ℕ}

theorem add_sand_sizes (x y : ℤ) (s : SimState n) :
    (add_sand x y s).avalanche_sizes = s.avalanche_sizes := by
  unfold add_sand
  split_ifs <;> rfl

theorem stable_add_sand (s : SimState n) (x y : ℤ) (hs : stable s.grid)
    (htar : ∀ i j : Fin n, i.val = y.toNat → j.val = x.toNat → s.grid i j + 1 < 4) :
    stable (add_sand x y s).grid := by
  unfold add_sand
  split_ifs with h
  · intro i j
    show bump s.grid y.toNat x.toNat i j < 4
    unfold bump
    split_ifs with hij
    · exact htar i j hij.1 hij.2
    · exact hs i j
  · exact hs

end Sandpile

open Sandpile

/-- C1: conservation of sand. For any sequence of add_sand drops, each
followed by a full topple stabilization, starting from a grid with every
cell below the threshold 4, the final grid mass plus the total number of
grains lost off the open boundaries equals the initial grid mass plus the
number of successful in-bounds drops (the drop counter). -/
theorem claim_C1_conservation {n : ℕ} (ds : List (ℤ × ℤ)) (g0 : Grid n)
    (_h0 : stable g0) :
    mass (runSim ⟨g0, 0, [], 0⟩ ds).grid + (runSim ⟨g0, 0, [], 0⟩ ds).lost =
      mass g0 + (runSim ⟨g0, 0, [], 0⟩ ds).total_drops := by
  have h := runSim_conservation ds (⟨g0, 0, [], 0⟩ : SimState n)
  dsimp only at h
  omega

theorem claim_C1_conservation_witness :
    stable (fun _ _ => 0 : Grid 2) ∧
      mass (runSim ⟨(fun _ _ => 0 : Grid 2), 0, [], 0⟩ [((0 : ℤ), (0 : ℤ))]).grid +
          (runSim ⟨(fun _ _ => 0 : Grid 2), 0, [], 0⟩ [((0 : ℤ), (0 : ℤ))]).lost =
        mass (fun _ _ => 0 : Grid 2) +
          (runSim ⟨(fun _ _ => 0 : Grid 2), 0, [], 0⟩ [((0 : ℤ), (0 : ℤ))]).total_drops :=
  ⟨by decide, claim_C1_conservation [((0 : ℤ), (0 : ℤ))] (fun _ _ => 0) (by decide)⟩

/-- C2: stability post-condition. After every topple call, every cell of the
resulting grid is strictly below 4. -/
theorem claim_C2_stability {n : ℕ} (g : Grid n) (y x : Fin n) :
    (topple g).1 y x < 4 :=
  toppleAux_stable_result (phi g) g le_rfl y x

/-- C3: determinism and pass-order independence. Stabilizing a grid with the
per-pass unstable set enumerated by any valid strategy (each unstable cell
listed exactly once, in any order) produces exactly the same final grid and
avalanche size as the row-major enumeration, because each pass decrements the
toppling cells independently and accumulates all additions in a scratch
buffer applied only at the end of the pass. -/
theorem claim_C3_order_independence {n : ℕ}
    (sel : Grid n → List (Fin n × Fin n)) (hsel : SelSpec sel) (g : Grid n)
    (fuel : ℕ) :
    toppleAuxOrd sel fuel g = toppleAux fuel g ∧
      toppleAuxOrd sel (phi g) g = topple g :=
  ⟨toppleAuxOrd_eq sel hsel fuel g, toppleAuxOrd_eq sel hsel (phi g) g⟩

theorem claim_C3_order_independence_witness :
    SelSpec (fun g : Grid 1 => (unstableList g).reverse) ∧
      toppleAuxOrd (fun g : Grid 1 => (unstableList g).reverse) 2 (fun _ _ => 5) =
        toppleAux 2 (fun _ _ => 5) := by
  have hsel : SelSpec (fun g : Grid 1 => (unstableList g).reverse) := by
    intro g
    refine ⟨List.nodup_reverse.2 (nodup_unstableList g), ?_⟩
    intro p
    rw [List.mem_reverse, mem_unstableList]
  exact ⟨hsel, (claim_C3_order_independence _ hsel (fun _ _ => 5) 2).1⟩

/-- C4: termination of stabilization. For every finite grid the stabilization
loop reaches a stable grid within phi g passes; giving the loop any larger
pass budget changes nothing, so the while loop of the source terminates. -/
theorem claim_C4_termination {n : ℕ} (g : Grid n) :
    stable ((toppleAux (phi g) g).1) ∧
      ∀ fuel : ℕ, phi g ≤ fuel → toppleAux fuel g = toppleAux (phi g) g :=
  ⟨toppleAux_stable_result (phi g) g le_rfl,
   fun fuel hf => toppleAux_fuel_irrel (phi g) g fuel le_rfl hf⟩

theorem claim_C4_termination_witness :
    stable ((toppleAux (phi (fun _ _ => 4 : Grid 2)) (fun _ _ => 4 : Grid 2)).1) ∧
      phi (fun _ _ => 4 : Grid 2) ≤ 100 ∧
      toppleAux 100 (fun _ _ => 4 : Grid 2) =
        toppleAux (phi (fun _ _ => 4 : Grid 2)) (fun _ _ => 4 : Grid 2) :=
  ⟨(claim_C4_termination _).1, by decide, (claim_C4_termination _).2 100 (by decide)⟩

/-- C5 counterexample: the grid is not toroidal.  On a 3 x 3 grid whose
corner cell (0,0) holds 4 grains, toppling delivers grains only to the two
in-bounds neighbors (0,1) and (1,0); the wrapped-around cells (0,2) and
(2,0) receive nothing, and total mass drops from 4 to 2, so two grains are
lost off-grid, contradicting the claim that all 4 redistributed grains reach
in-grid neighbors and no grain is lost. -/
theorem claim_C5_toroidal_counterexample :
    mass cornerGrid = 4 ∧ mass (topple cornerGrid).1 = 2 ∧
      (topple cornerGrid).1 0 1 = 1 ∧ (topple cornerGrid).1 1 0 = 1 ∧
      (topple cornerGrid).1 0 2 = 0 ∧ (topple cornerGrid).1 2 0 = 0 ∧
      (topple cornerGrid).2 = 1 := by
  decide

/-- C5 amended: the boundary is open, not toroidal.  Neighbor computation
does not wrap: a toppling cell delivers exactly one grain to each of its
in-bounds von Neumann neighbors (its degree, which is 4 exactly for interior
cells), and the grains aimed off-grid are lost, so a topple call conserves
mass only up to the recorded boundary loss. -/
theorem claim_C5_open_boundary {n : ℕ} (g : Grid n) :
    (mass (topple g).1 + toppleLost g = mass g) ∧
      (∀ c : Fin n × Fin n, hitSum (fun _ => 1) c = degree n c) ∧
      (∀ c : Fin n × Fin n, degree n c = 4 ↔
        0 < c.1.val ∧ c.1.val < n - 1 ∧ 0 < c.2.val ∧ c.2.val < n - 1) := by
  refine ⟨mass_topple g, fun c => hitCount_eq_degree c, fun c => ?_⟩
  unfold degree
  constructor
  · intro h
    split_ifs at h <;> omega
  · rintro ⟨h1, h2, h3, h4⟩
    rw [if_pos h3, if_pos h4, if_pos h1, if_pos h2]

/-- C6: bounds checking of add_sand. An out-of-bounds drop leaves the whole
state unchanged (no cell mutation, no drop-counter increment); an in-bounds
drop increments exactly the target cell by 1 and the drop counter by 1. -/
theorem claim_C6_add_sand {n : ℕ} (x y : ℤ) (s : SimState n) :
    (¬(0 ≤ x ∧ x < (n : ℤ) ∧ 0 ≤ y ∧ y < (n : ℤ)) → add_sand x y s = s) ∧
    ((0 ≤ x ∧ x < (n : ℤ) ∧ 0 ≤ y ∧ y < (n : ℤ)) →
      (∀ i j : Fin n, (add_sand x y s).grid i j =
        (if i.val = y.toNat ∧ j.val = x.toNat then s.grid i j + 1 else s.grid i j)) ∧
      (add_sand x y s).total_drops = s.total_drops + 1 ∧
      (add_sand x y s).avalanche_sizes = s.avalanche_sizes ∧
      (add_sand x y s).lost = s.lost) := by
  constructor
  · intro h
    unfold add_sand
    rw [if_neg h]
  · intro h
    unfold add_sand
    rw [if_pos h]
    exact ⟨fun i j => rfl, rfl, rfl, rfl⟩

theorem claim_C6_add_sand_witness :
    (¬(0 ≤ (5 : ℤ) ∧ (5 : ℤ) < ((2 : ℕ) : ℤ) ∧ 0 ≤ (0 : ℤ) ∧ (0 : ℤ) < ((2 : ℕ) : ℤ))) ∧
      add_sand 5 0 (⟨fun _ _ => 0, 0, [], 0⟩ : SimState 2) =
        (⟨fun _ _ => 0, 0, [], 0⟩ : SimState 2) ∧
      (add_sand 1 0 (⟨fun _ _ => 0, 0, [], 0⟩ : SimState 2)).total_drops = 0 + 1 :=
  ⟨by decide,
   (claim_C6_add_sand 5 0 _).1 (by decide),
   ((claim_C6_add_sand 1 0 _).2 (by decide)).2.1⟩

/-- C7: avalanche recording. record_avalanche appends its argument to the
series exactly when it is positive; and a drop onto an already-stable grid
whose target cell is below 3 before the drop stabilizes trivially: topple
performs zero passes, returns avalanche size 0, and the series is unchanged
by the whole drop cycle. -/
theorem claim_C7_recording {n : ℕ} :
    (∀ (sz : ℕ) (s : SimState n),
      (0 < sz → (record_avalanche sz s).avalanche_sizes = s.avalanche_sizes ++ [sz]) ∧
      (sz = 0 → record_avalanche sz s = s)) ∧
    (∀ (s : SimState n) (x y : ℤ), stable s.grid →
      (∀ i j : Fin n, i.val = y.toNat → j.val = x.toNat → s.grid i j + 1 < 4) →
      topple (add_sand x y s).grid = ((add_sand x y s).grid, 0) ∧
      (dropStep s (x, y)).avalanche_sizes = s.avalanche_sizes) := by
  constructor
  · intro sz s
    constructor
    · intro hpos
      unfold record_avalanche
      rw [if_pos hpos]
    · intro hz
      subst hz
      rfl
  · intro s x y hs htar
    have hstab : stable (add_sand x y s).grid := stable_add_sand s x y hs htar
    have hns : ¬ anyUnstable (add_sand x y s).grid :=
      (stable_iff_not_any _).1 hstab
    have htop : topple (add_sand x y s).grid = ((add_sand x y s).grid, 0) :=
      toppleAux_of_stable _ _ hns
    refine ⟨htop, ?_⟩
    unfold dropStep
    dsimp only
    rw [htop]
    show (record_avalanche 0 _).avalanche_sizes = _
    unfold record_avalanche
    rw [if_neg (by omega)]
    exact add_sand_sizes x y s

theorem claim_C7_recording_witness :
    (record_avalanche 3 (⟨fun _ _ => 0, 0, [], 0⟩ : SimState 2)).avalanche_sizes =
        [] ++ [3] ∧
      topple (add_sand 0 0 (⟨fun _ _ => 0, 0, [], 0⟩ : SimState 2)).grid =
        ((add_sand 0 0 (⟨fun _ _ => 0, 0, [], 0⟩ : SimState 2)).grid, 0) ∧
      (dropStep (⟨fun _ _ => 0, 0, [], 0⟩ : SimState 2) (0, 0)).avalanche_sizes = [] :=
  ⟨((claim_C7_recording).1 3 _).1 (by decide),
   ((claim_C7_recording).2 _ 0 0 (by decide) (by decide)).1,
   ((claim_C7_recording).2 _ 0 0 (by decide) (by decide)).2⟩

/-- C8: concrete interior-topple scenario. On a 5 x 5 all-zero grid, four
drops onto the interior cell (2,2), each followed by stabilization, leave
the first three drops avalanche-free; the fourth raises the cell to 4 and
triggers exactly one pass (one unstable cell, stable immediately after),
after which cell (2,2) is 0, its four neighbors hold 1 each, the recorded
avalanche series is [1], the drop counter is 4, and total mass is 4. -/
theorem claim_C8_interior_scenario :
    (runSim initC8 drops3C8).grid 2 2 = 3 ∧
      (runSim initC8 drops3C8).avalanche_sizes = [] ∧
      (add_sand 2 2 (runSim initC8 drops3C8)).grid 2 2 = 4 ∧
      (unstableList (add_sand 2 2 (runSim initC8 drops3C8)).grid).length = 1 ∧
      stable (passList (add_sand 2 2 (runSim initC8 drops3C8)).grid
        (unstableList (add_sand 2 2 (runSim initC8 drops3C8)).grid)) ∧
      (runSim initC8 dropsC8).grid 2 2 = 0 ∧
      (runSim initC8 dropsC8).grid 1 2 = 1 ∧
      (runSim initC8 dropsC8).grid 3 2 = 1 ∧
      (runSim initC8 dropsC8).grid 2 1 = 1 ∧
      (runSim initC8 dropsC8).grid 2 3 = 1 ∧
      (runSim initC8 dropsC8).avalanche_sizes = [1] ∧
      (runSim initC8 dropsC8).total_drops = 4 ∧
      mass (runSim initC8 dropsC8).grid = 4 := by
  decide

/-- C9: fit degeneracy. When the statistics computation runs on a non-empty
avalanche-size series whose histogram retains fewer than 2 non-empty bins,
it returns the insufficient-data outcome carrying exactly the non-empty
(center, count) pairs, and in particular never a fitted slope. -/
theorem claim_C9_fit_degeneracy (gmean : ℚ → ℚ → ℚ) (logTen : ℚ → ℚ)
    (edges : List ℚ) (sizes : List ℕ) (h1 : sizes ≠ [])
    (h2 : (Stats.filteredPairs gmean edges sizes).length < 2) :
    Stats.plot_avalanches_enhanced gmean logTen edges sizes =
      Stats.FitOutcome.insufficient (Stats.filteredPairs gmean edges sizes) ∧
    ∀ (m b : ℚ) (pr : List (ℚ × ℕ)),
      Stats.plot_avalanches_enhanced gmean logTen edges sizes ≠
        Stats.FitOutcome.fitted m b pr := by
  have hmain : Stats.plot_avalanches_enhanced gmean logTen edges sizes =
      Stats.FitOutcome.insufficient (Stats.filteredPairs gmean edges sizes) := by
    unfold Stats.plot_avalanches_enhanced
    rw [if_neg h1]
    dsimp only
    rw [if_pos h2]
  refine ⟨hmain, fun m b pr hcon => ?_⟩
  rw [hmain] at hcon
  cases hcon

theorem claim_C9_fit_degeneracy_witness :
    ([3, 3, 3] : List ℕ) ≠ [] ∧
      (Stats.filteredPairs (fun a _ => a) [1, 10] [3, 3, 3]).length < 2 ∧
      Stats.plot_avalanches_enhanced (fun a _ => a) id [1, 10] [3, 3, 3] =
        Stats.FitOutcome.insufficient
          (Stats.filteredPairs (fun a _ => a) [1, 10] [3, 3, 3]) :=
  ⟨by decide, by decide,
   (claim_C9_fit_degeneracy (fun a _ => a) id [1, 10] [3, 3, 3]
     (by decide) (by decide)).1⟩

/-- C10: the defensive empty-enumeration branch is unreachable. Whenever the
while condition holds (some cell is at or above 4), the enumeration of
unstable cells is non-empty, and the loop body takes the pass branch, never
the break branch. -/
theorem claim_C10_defensive_branch {n : ℕ} (g : Grid n) (h : anyUnstable g) :
    (unstableList g).length ≠ 0 ∧
      ∀ fuel : ℕ, toppleAux (fuel + 1) g =
        ((toppleAux fuel (passList g (unstableList g))).1,
          (unstableList g).length +
            (toppleAux fuel (passList g (unstableList g))).2) := by
  have hlen := unstableList_length_ne_zero g h
  refine ⟨hlen, fun fuel => ?_⟩
  simp only [toppleAux, if_pos h, if_neg hlen]

theorem claim_C10_defensive_branch_witness :
    anyUnstable (fun _ _ => 4 : Grid 1) ∧
      (unstableList (fun _ _ => 4 : Grid 1)).length ≠ 0 :=
  ⟨by decide, (claim_C10_defensive_branch _ (by decide)).1⟩
